import Mathlib

/-!
Verification of the capture-method inference and scanline weighting of
`arim/ut.py`, via a shallow embedding of `fmc`, `hmc`,
`infer_capture_method` and `default_scanline_weights`.
-/

namespace Arim

/-- Failure modes of the Python code: `np.max` on an empty array raises
`ValueError`, the `assert len(tx) == len(rx)` raises `AssertionError`, and
`default_scanline_weights` raises `ValueError` on mismatched lengths. -/
inductive UtError where
  | emptyMax
  | assertionError
  | valueError
  deriving DecidableEq

/-- `np.max` over a list of indices: the maximum, failing on empty input. -/
def npmax (l : List Nat) : Except UtError Nat :=
  match l.max? with
  | none => .error .emptyMax
  | some m => .ok m

/-- `fmc(numelements)` from `ut.py`: `tx = np.repeat(elements, numelements)`
and `rx = np.tile(elements, numelements)` for `elements = np.arange(numelements)`. -/
def fmc (numelements : Nat) : List Nat × List Nat :=
  let elements := List.range numelements
  let tx := elements.flatMap (fun e => List.replicate numelements e)
  let rx := (List.replicate numelements elements).flatten
  (tx, rx)

/-- `hmc(numelements)` from `ut.py`: `tx = np.repeat(elements, range(numelements, 0, -1))`,
and `rx` built by writing, for each count `n` in `range(numelements, 0, -1)`,
the last `n` entries of `elements` into the next `n` slots. -/
def hmc (numelements : Nat) : List Nat × List Nat :=
  let elements := List.range numelements
  let take_n_last := (List.range numelements).map (fun i => numelements - i)
  let tx := (elements.zip take_n_last).flatMap (fun p => List.replicate p.2 p.1)
  let rx := take_n_last.flatMap (fun n => elements.drop (elements.length - n))
  (tx, rx)

/-- Python set equality of two lists of pairs: same members on both sides. -/
def setEq (a b : List (Nat × Nat)) : Bool :=
  a.all (fun p => decide (p ∈ b)) && b.all (fun p => decide (p ∈ a))

/-- The classification performed by `infer_capture_method` once `numelements`
is known and the length assertion has passed: try HMC (in both coordinate
orders) first, then FMC, else `"unsupported"`. -/
def classify (tx rx : List Nat) (numelements : Nat) : String :=
  let combinations := tx.zip rx
  let hmcPair := hmc numelements
  let combinations_hmc1 := hmcPair.1.zip hmcPair.2
  let combinations_hmc2 := hmcPair.2.zip hmcPair.1
  if hmcPair.1.length = tx.length ∧
      (setEq combinations combinations_hmc1 = true ∨
        setEq combinations combinations_hmc2 = true) then "hmc"
  else
    let fmcPair := fmc numelements
    let combinations_fmc := fmcPair.1.zip fmcPair.2
    if fmcPair.1.length = tx.length ∧ setEq combinations combinations_fmc = true
    then "fmc"
    else "unsupported"

/-- `infer_capture_method(tx, rx)` from `ut.py`: first compute
`numelements = max(np.max(tx), np.max(rx)) + 1` (failing on empty input, as
`np.max` does), then `assert len(tx) == len(rx)`, then classify. -/
def infer_capture_method (tx rx : List Nat) : Except UtError String :=
  match npmax tx with
  | .error e => .error e
  | .ok mtx =>
    match npmax rx with
    | .error e => .error e
    | .ok mrx =>
      if tx.length = rx.length then .ok (classify tx rx (max mtx mrx + 1))
      else .error .assertionError

/-- `default_scanline_weights(tx, rx)` from `ut.py`: raise on length mismatch,
else weight each scanline 1 when its swapped pair occurs among the observed
pairs and 2 otherwise.  The float weights 1.0 and 2.0 (exactly representable)
are embedded as the rationals 1 and 2. -/
def default_scanline_weights (tx rx : List Nat) : Except UtError (List ℚ) :=
  if tx.length ≠ rx.length then .error .valueError
  else
    let elements_pairs := tx.zip rx
    .ok ((tx.zip rx).map (fun p => if (p.2, p.1) ∈ elements_pairs then (1 : ℚ) else 2))

/-- The observed pair list of `fmc numelements`. -/
def fmcPairs (n : Nat) : List (Nat × Nat) := (fmc n).1.zip (fmc n).2

/-- The observed pair list of `hmc numelements`. -/
def hmcPairs (n : Nat) : List (Nat × Nat) := (hmc n).1.zip (hmc n).2

theorem setEq_iff {a b : List (Nat × Nat)} :
    setEq a b = true ↔ ∀ p : Nat × Nat, p ∈ a ↔ p ∈ b := by
  simp only [setEq, Bool.and_eq_true, List.all_eq_true, decide_eq_true_eq]
  constructor
  · rintro ⟨h1, h2⟩ p
    exact ⟨fun hp => h1 p hp, fun hp => h2 p hp⟩
  · intro h
    exact ⟨fun p hp => (h p).1 hp, fun p hp => (h p).2 hp⟩

theorem setEq_refl (a : List (Nat × Nat)) : setEq a a = true :=
  setEq_iff.2 (fun _ => Iff.rfl)

theorem zip_replicate_left {α β : Type} (l : List β) (a : α) :
    (List.replicate l.length a).zip l = l.map (fun x => (a, x)) := by
  induction l with
  | nil => rfl
  | cons x xs ih => simp [List.replicate_succ, ih]

theorem zip_flatMap {α β γ : Type} (l : List α) (f : α → List β) (g : α → List γ)
    (h : ∀ x ∈ l, (f x).length = (g x).length) :
    (l.flatMap f).zip (l.flatMap g) = l.flatMap (fun x => (f x).zip (g x)) := by
  induction l with
  | nil => rfl
  | cons a l ih =>
    simp only [List.flatMap_cons]
    rw [List.zip_append (h a (List.mem_cons_self a l)),
      ih (fun x hx => h x (List.mem_cons_of_mem a hx))]

theorem length_flatMap' {α β : Type} (l : List α) (f : α → List β) :
    (l.flatMap f).length = (l.map fun x => (f x).length).sum := by
  induction l with
  | nil => rfl
  | cons a l ih => simp [List.flatMap_cons, ih]

theorem flatten_replicate {α : Type} (k : Nat) (l : List α) :
    (List.replicate k l).flatten = (List.range k).flatMap (fun _ => l) := by
  induction k with
  | zero => rfl
  | succ k ih =>
    rw [List.replicate_succ', List.range_succ]
    simp [ih]

theorem sum_map_succ (l : List Nat) (f : Nat → Nat) :
    (l.map (fun x => f x + 1)).sum = (l.map f).sum + l.length := by
  induction l with
  | nil => rfl
  | cons a l ih =>
    simp only [List.map_cons, List.sum_cons, List.length_cons, ih]
    omega

theorem sum_range_sub (n : Nat) :
    2 * ((List.range n).map (fun t => n - t)).sum = n * (n + 1) := by
  induction n with
  | zero => rfl
  | succ n ih =>
    rw [List.range_succ, List.map_append, List.sum_append]
    have hmap : (List.range n).map (fun t => n + 1 - t)
        = (List.range n).map (fun t => (n - t) + 1) := by
      refine List.map_congr_left (fun t ht => ?_)
      rw [List.mem_range] at ht
      omega
    rw [hmap, sum_map_succ (List.range n) (fun t => n - t), List.length_range]
    simp only [List.map_cons, List.map_nil, List.sum_cons, List.sum_nil]
    have hexp : (n + 1) * (n + 1 + 1) = n * (n + 1) + 2 * (n + 1) := by ring
    omega

theorem drop_range (n t : Nat) (h : t ≤ n) :
    (List.range n).drop t = List.range' t (n - t) := by
  rw [List.range_eq_range']
  have h3 := List.range'_append_1 0 t (n - t)
  rw [show n - t + t = n from by omega] at h3
  rw [Nat.zero_add] at h3
  rw [← h3]
  exact List.drop_left' (by simp)

theorem mem_drop_range {n t r : Nat} : r ∈ (List.range n).drop t ↔ t ≤ r ∧ r < n := by
  rcases Nat.le_total t n with h | h
  · rw [drop_range n t h, List.mem_range'_1]
    omega
  · rw [List.drop_eq_nil_of_le (by simpa using h)]
    simp only [List.not_mem_nil, false_iff]
    omega

theorem fmc_fst (n : Nat) :
    (fmc n).1 = (List.range n).flatMap (fun e => List.replicate n e) := rfl

theorem fmc_snd (n : Nat) :
    (fmc n).2 = (List.range n).flatMap (fun _ => List.range n) := by
  simp only [fmc]
  exact flatten_replicate n (List.range n)

theorem hmc_fst (n : Nat) :
    (hmc n).1 = (List.range n).flatMap (fun t => List.replicate (n - t) t) := by
  have h : (List.range n).zip ((List.range n).map fun i => n - i)
      = (List.range n).map (fun a => (a, n - a)) := by
    have h2 := List.zip_map' (fun a => a) (fun i => n - i) (List.range n)
    simpa using h2
  simp only [hmc]
  rw [h, List.flatMap_map]

theorem hmc_snd (n : Nat) :
    (hmc n).2 = (List.range n).flatMap (fun t => (List.range n).drop t) := by
  simp only [hmc]
  rw [List.flatMap_map]
  refine List.flatMap_congr (fun t ht => ?_)
  rw [List.mem_range] at ht
  rw [List.length_range]
  congr 1
  omega

theorem fmcPairs_eq (n : Nat) :
    fmcPairs n = (List.range n).flatMap (fun t => (List.range n).map (fun r => (t, r))) := by
  rw [fmcPairs, fmc_fst, fmc_snd, zip_flatMap]
  · refine List.flatMap_congr (fun t ht => ?_)
    have h := zip_replicate_left (List.range n) t
    rwa [List.length_range] at h
  · intro x hx
    simp

theorem hmcPairs_eq (n : Nat) :
    hmcPairs n
      = (List.range n).flatMap (fun t => ((List.range n).drop t).map (fun r => (t, r))) := by
  rw [hmcPairs, hmc_fst, hmc_snd, zip_flatMap]
  · refine List.flatMap_congr (fun t ht => ?_)
    have h := zip_replicate_left ((List.range n).drop t) t
    rwa [List.length_drop, List.length_range] at h
  · intro x hx
    simp

theorem mem_fmcPairs {n t r : Nat} : (t, r) ∈ fmcPairs n ↔ t < n ∧ r < n := by
  rw [fmcPairs_eq]
  simp only [List.mem_flatMap, List.mem_map, List.mem_range]
  constructor
  · rintro ⟨a, ha, x, hx, hax⟩
    rw [Prod.mk.injEq] at hax
    obtain ⟨rfl, rfl⟩ := hax
    exact ⟨ha, hx⟩
  · rintro ⟨ht, hr⟩
    exact ⟨t, ht, r, hr, rfl⟩

theorem mem_hmcPairs {n t r : Nat} : (t, r) ∈ hmcPairs n ↔ t ≤ r ∧ r < n := by
  rw [hmcPairs_eq]
  simp only [List.mem_flatMap, List.mem_map, List.mem_range]
  constructor
  · rintro ⟨a, ha, x, hx, hax⟩
    rw [Prod.mk.injEq] at hax
    obtain ⟨rfl, rfl⟩ := hax
    rw [mem_drop_range] at hx
    exact hx
  · rintro ⟨htr, hrn⟩
    exact ⟨t, by omega, r, mem_drop_range.2 ⟨htr, hrn⟩, rfl⟩

theorem fmc_fst_length (n : Nat) : (fmc n).1.length = n * n := by
  rw [fmc_fst, length_flatMap']
  simp only [List.length_replicate]
  rw [List.map_const', List.length_range, List.sum_const_nat]

theorem fmc_snd_length (n : Nat) : (fmc n).2.length = n * n := by
  rw [fmc_snd, length_flatMap']
  simp only [List.length_range]
  rw [List.map_const', List.length_range, List.sum_const_nat]

theorem hmc_fst_length_twice (n : Nat) : 2 * (hmc n).1.length = n * (n + 1) := by
  rw [hmc_fst, length_flatMap']
  simp only [List.length_replicate]
  exact sum_range_sub n

theorem hmc_snd_length (n : Nat) : (hmc n).2.length = (hmc n).1.length := by
  rw [hmc_fst, hmc_snd, length_flatMap', length_flatMap']
  refine congrArg List.sum (List.map_congr_left fun t ht => ?_)
  simp

theorem mem_fmc_fst {n a : Nat} : a ∈ (fmc n).1 ↔ a < n := by
  rw [fmc_fst]
  simp only [List.mem_flatMap, List.mem_range, List.mem_replicate]
  constructor
  · rintro ⟨x, hx, -, rfl⟩
    exact hx
  · intro h
    exact ⟨a, h, by omega, rfl⟩

theorem mem_fmc_snd {n a : Nat} : a ∈ (fmc n).2 ↔ a < n := by
  rw [fmc_snd]
  simp only [List.mem_flatMap, List.mem_range]
  constructor
  · rintro ⟨x, -, ha⟩
    exact ha
  · intro h
    exact ⟨0, by omega, h⟩

theorem mem_hmc_fst {n a : Nat} : a ∈ (hmc n).1 ↔ a < n := by
  rw [hmc_fst]
  simp only [List.mem_flatMap, List.mem_range, List.mem_replicate]
  constructor
  · rintro ⟨x, hx, -, rfl⟩
    exact hx
  · intro h
    exact ⟨a, h, by omega, rfl⟩

theorem mem_hmc_snd {n a : Nat} : a ∈ (hmc n).2 ↔ a < n := by
  rw [hmc_snd]
  simp only [List.mem_flatMap, List.mem_range]
  constructor
  · rintro ⟨x, -, ha⟩
    exact (mem_drop_range.1 ha).2
  · intro h
    exact ⟨0, by omega, mem_drop_range.2 ⟨Nat.zero_le a, h⟩⟩

theorem npmax_eq_ok {l : List Nat} {m : Nat} (hmem : m ∈ l) (hub : ∀ a ∈ l, a ≤ m) :
    npmax l = .ok m := by
  unfold npmax
  rw [List.max?_eq_some_iff'.2 ⟨hmem, hub⟩]

theorem npmax_fmc_fst {n : Nat} (h : 1 ≤ n) : npmax (fmc n).1 = .ok (n - 1) :=
  npmax_eq_ok (mem_fmc_fst.2 (by omega))
    (fun a ha => by have := mem_fmc_fst.1 ha; omega)

theorem npmax_fmc_snd {n : Nat} (h : 1 ≤ n) : npmax (fmc n).2 = .ok (n - 1) :=
  npmax_eq_ok (mem_fmc_snd.2 (by omega))
    (fun a ha => by have := mem_fmc_snd.1 ha; omega)

theorem npmax_hmc_fst {n : Nat} (h : 1 ≤ n) : npmax (hmc n).1 = .ok (n - 1) :=
  npmax_eq_ok (mem_hmc_fst.2 (by omega))
    (fun a ha => by have := mem_hmc_fst.1 ha; omega)

theorem npmax_hmc_snd {n : Nat} (h : 1 ≤ n) : npmax (hmc n).2 = .ok (n - 1) :=
  npmax_eq_ok (mem_hmc_snd.2 (by omega))
    (fun a ha => by have := mem_hmc_snd.1 ha; omega)

theorem infer_eq_of_ok {tx rx : List Nat} {mtx mrx : Nat}
    (htx : npmax tx = .ok mtx) (hrx : npmax rx = .ok mrx) :
    infer_capture_method tx rx
      = if tx.length = rx.length then .ok (classify tx rx (max mtx mrx + 1))
        else .error .assertionError := by
  unfold infer_capture_method
  rw [htx, hrx]

theorem classify_hmc_self (n : Nat) : classify (hmc n).1 (hmc n).2 n = "hmc" := by
  simp only [classify]
  rw [if_pos ⟨by trivial, Or.inl (setEq_refl _)⟩]

theorem classify_hmc_swap (n : Nat) : classify (hmc n).2 (hmc n).1 n = "hmc" := by
  simp only [classify]
  rw [if_pos ⟨(hmc_snd_length n).symm, Or.inr (setEq_refl _)⟩]

theorem classify_fmc_self {n : Nat} (h : 2 ≤ n) : classify (fmc n).1 (fmc n).2 n = "fmc" := by
  have h1 := hmc_fst_length_twice n
  have h2 := fmc_fst_length n
  have hne : (hmc n).1.length ≠ (fmc n).1.length := by
    intro hlen
    rw [h2] at hlen
    rw [hlen, Nat.mul_succ] at h1
    have hm : n * n = n := by
      generalize hnn : n * n = m at h1
      omega
    have h0 : 0 < n := by omega
    have hn1 : n = 1 :=
      Nat.eq_of_mul_eq_mul_left h0 (show n * n = n * 1 by rw [Nat.mul_one]; exact hm)
    omega
  simp only [classify]
  rw [if_neg (fun hc => hne hc.1), if_pos ⟨by trivial, setEq_refl _⟩]

theorem infer_fmc {n : Nat} (h : 2 ≤ n) :
    infer_capture_method (fmc n).1 (fmc n).2 = .ok "fmc" := by
  have h1 : 1 ≤ n := by omega
  rw [infer_eq_of_ok (npmax_fmc_fst h1) (npmax_fmc_snd h1),
    if_pos (by rw [fmc_fst_length, fmc_snd_length])]
  rw [show max (n - 1) (n - 1) + 1 = n from by omega, classify_fmc_self h]

theorem infer_hmc {n : Nat} (h : 1 ≤ n) :
    infer_capture_method (hmc n).1 (hmc n).2 = .ok "hmc" := by
  rw [infer_eq_of_ok (npmax_hmc_fst h) (npmax_hmc_snd h),
    if_pos (hmc_snd_length n).symm]
  rw [show max (n - 1) (n - 1) + 1 = n from by omega, classify_hmc_self]

theorem infer_hmc_swapped {n : Nat} (h : 1 ≤ n) :
    infer_capture_method (hmc n).2 (hmc n).1 = .ok "hmc" := by
  rw [infer_eq_of_ok (npmax_hmc_snd h) (npmax_hmc_fst h),
    if_pos (hmc_snd_length n)]
  rw [show max (n - 1) (n - 1) + 1 = n from by omega, classify_hmc_swap]

theorem dsw_eq {tx rx : List Nat} (h : tx.length = rx.length) :
    default_scanline_weights tx rx
      = .ok ((tx.zip rx).map (fun p => if (p.2, p.1) ∈ tx.zip rx then (1 : ℚ) else 2)) := by
  simp only [default_scanline_weights]
  rw [if_neg (fun hc => hc h)]

/-- Total variant of `np.max` (default 0), used only to state theorems about
nonempty inputs; `npmax_of_ne_nil` ties it to the embedded `npmax`. -/
def listMax (l : List Nat) : Nat := l.foldl max 0

theorem npmax_of_ne_nil {l : List Nat} (h : l ≠ []) : npmax l = .ok (listMax l) := by
  match l with
  | [] => exact absurd rfl h
  | a :: as =>
    show Except.ok (as.foldl max a) = Except.ok (List.foldl max (max 0 a) as)
    rw [Nat.zero_max]

theorem classify_unsupported {tx rx : List Nat} {n : Nat}
    (hhmc : ¬((hmc n).1.length = tx.length ∧
      (setEq (tx.zip rx) ((hmc n).1.zip (hmc n).2) = true ∨
        setEq (tx.zip rx) ((hmc n).2.zip (hmc n).1) = true)))
    (hfmc : ¬((fmc n).1.length = tx.length ∧
      setEq (tx.zip rx) ((fmc n).1.zip (fmc n).2) = true)) :
    classify tx rx n = "unsupported" := by
  simp only [classify]
  rw [if_neg hhmc, if_neg hfmc]

example : fmc 2 = ([0, 0, 1, 1], [0, 1, 0, 1]) := by decide
example : hmc 3 = ([0, 0, 0, 1, 1, 2], [0, 1, 2, 1, 2, 2]) := by decide
example : infer_capture_method [0, 0, 1, 1] [0, 1, 0, 1] = .ok "fmc" := by rfl
example : infer_capture_method [0, 0, 1] [0, 1, 1] = .ok "hmc" := by rfl
example : default_scanline_weights [0, 0, 1] [0, 1, 1] = .ok [1, 2, 1] := by rfl

/-- C1 (counterexample): at `N = 1` the claim fails: `infer_capture_method` on
the arrays produced by `fmc 1` returns `"hmc"`, not `"fmc"`, because the
half-matrix check runs first and the two pair sets coincide. -/
theorem infer_fmc_one_misclassified :
    infer_capture_method (fmc 1).1 (fmc 1).2 = .ok "hmc" ∧
      infer_capture_method (fmc 1).1 (fmc 1).2 ≠ .ok "fmc" := by
  refine ⟨rfl, fun hco => ?_⟩
  rw [show infer_capture_method (fmc 1).1 (fmc 1).2 = .ok "hmc" from rfl] at hco
  exact absurd (Except.ok.inj hco) (by decide)

/-- C1 (amended): for every `N ≥ 2`, `infer_capture_method` on the arrays
produced by `fmc N` returns `"fmc"`; for every `N ≥ 1`, on the arrays produced
by `hmc N` — in either coordinate order — it returns `"hmc"`. -/
theorem infer_on_fmc_hmc_arrays (n : Nat) :
    (2 ≤ n → infer_capture_method (fmc n).1 (fmc n).2 = .ok "fmc") ∧
    (1 ≤ n → infer_capture_method (hmc n).1 (hmc n).2 = .ok "hmc" ∧
      infer_capture_method (hmc n).2 (hmc n).1 = .ok "hmc") :=
  ⟨fun h => infer_fmc h, fun h => ⟨infer_hmc h, infer_hmc_swapped h⟩⟩

/-- Witness for C1 (amended) at `N = 2`. -/
theorem infer_on_fmc_hmc_arrays_witness :
    infer_capture_method (fmc 2).1 (fmc 2).2 = .ok "fmc" ∧
    (infer_capture_method (hmc 2).1 (hmc 2).2 = .ok "hmc" ∧
      infer_capture_method (hmc 2).2 (hmc 2).1 = .ok "hmc") :=
  ⟨(infer_on_fmc_hmc_arrays 2).1 (by omega), (infer_on_fmc_hmc_arrays 2).2 (by omega)⟩

/-- C3: when `len(tx) ≠ len(rx)`, neither function returns a normal result:
`infer_capture_method` fails (with the empty-`np.max` error or the assertion
error) and `default_scanline_weights` raises its `ValueError`. -/
theorem length_mismatch_fails (tx rx : List Nat) (h : tx.length ≠ rx.length) :
    (∃ e, infer_capture_method tx rx = .error e) ∧
      default_scanline_weights tx rx = .error .valueError := by
  constructor
  · match tx, rx with
    | [], _ => exact ⟨.emptyMax, rfl⟩
    | a :: as, [] => exact ⟨.emptyMax, rfl⟩
    | a :: as, b :: bs =>
      refine ⟨.assertionError, ?_⟩
      rw [infer_eq_of_ok (rfl : npmax (a :: as) = .ok (as.foldl max a))
        (rfl : npmax (b :: bs) = .ok (bs.foldl max b)), if_neg h]
  · simp only [default_scanline_weights]
    rw [if_pos h]

/-- Witness for C3 with `tx = [0]`, `rx = []`. -/
theorem length_mismatch_fails_witness :
    ([0] : List Nat).length ≠ ([] : List Nat).length ∧
    ((∃ e, infer_capture_method [0] [] = .error e) ∧
      default_scanline_weights [0] [] = .error .valueError) :=
  ⟨by decide, length_mismatch_fails [0] [] (by decide)⟩

/-- C4: in the degenerate case `N = 1` the half-matrix and full-matrix arrays
coincide, and `infer_capture_method` deterministically reports `"hmc"` on them
(the half-matrix check runs first). -/
theorem infer_degenerate_single_element :
    hmc 1 = fmc 1 ∧ infer_capture_method (fmc 1).1 (fmc 1).2 = .ok "hmc" :=
  ⟨rfl, rfl⟩

/-- C10: on empty `tx` and `rx`, `infer_capture_method` fails while computing
`max(np.max(tx), np.max(rx)) + 1` — the error is the empty-`np.max` one, not
the length-assertion one, and no capture method (not even `"unsupported"`) is
returned. -/
theorem infer_empty_input_fails :
    infer_capture_method [] [] = .error .emptyMax := rfl

/-- C2: with equal-length inputs, `default_scanline_weights` succeeds with a
list of the same length whose `i`-th entry is exactly 1 when the swapped pair
`(rx[i], tx[i])` occurs anywhere among the observed pairs `(tx[k], rx[k])`, and
exactly 2 otherwise. -/
theorem default_scanline_weights_spec (tx rx : List Nat) (h : tx.length = rx.length) :
    ∃ w : List ℚ, default_scanline_weights tx rx = .ok w ∧ w.length = tx.length ∧
      ∀ (i : Nat) (hit : i < tx.length) (hir : i < rx.length) (hiw : i < w.length),
        ((rx.get ⟨i, hir⟩, tx.get ⟨i, hit⟩) ∈ tx.zip rx ∧ w.get ⟨i, hiw⟩ = 1) ∨
        ((rx.get ⟨i, hir⟩, tx.get ⟨i, hit⟩) ∉ tx.zip rx ∧ w.get ⟨i, hiw⟩ = 2) := by
  refine ⟨_, dsw_eq h, ?_, ?_⟩
  · rw [List.length_map, List.length_zip, h, Nat.min_self]
  · intro i hit hir hiw
    simp only [List.get_eq_getElem, List.getElem_map, List.getElem_zip]
    by_cases hmem : ((rx[i], tx[i]) : Nat × Nat) ∈ tx.zip rx
    · exact Or.inl ⟨hmem, by rw [if_pos hmem]⟩
    · exact Or.inr ⟨hmem, by rw [if_neg hmem]⟩

/-- Witness for C2 with `tx = [0, 1]`, `rx = [1, 1]`. -/
theorem default_scanline_weights_spec_witness :
    ([0, 1] : List Nat).length = ([1, 1] : List Nat).length ∧
    (∃ w : List ℚ, default_scanline_weights [0, 1] [1, 1] = .ok w ∧
      w.length = ([0, 1] : List Nat).length ∧
      ∀ (i : Nat) (hit : i < ([0, 1] : List Nat).length)
        (hir : i < ([1, 1] : List Nat).length) (hiw : i < w.length),
        ((([1, 1] : List Nat).get ⟨i, hir⟩, ([0, 1] : List Nat).get ⟨i, hit⟩)
            ∈ ([0, 1] : List Nat).zip [1, 1] ∧ w.get ⟨i, hiw⟩ = 1) ∨
        ((([1, 1] : List Nat).get ⟨i, hir⟩, ([0, 1] : List Nat).get ⟨i, hit⟩)
            ∉ ([0, 1] : List Nat).zip [1, 1] ∧ w.get ⟨i, hiw⟩ = 2)) :=
  ⟨rfl, default_scanline_weights_spec [0, 1] [1, 1] rfl⟩

/-- C5: for the arrays of a full-matrix acquisition `fmc N`, every returned
weight equals 1: the result is a list of `N * N` ones. -/
theorem weights_fmc_all_one (n : Nat) :
    default_scanline_weights (fmc n).1 (fmc n).2
      = .ok (List.replicate (n * n) (1 : ℚ)) := by
  rw [dsw_eq (by rw [fmc_fst_length, fmc_snd_length])]
  have hone : ∀ p ∈ (fmc n).1.zip (fmc n).2,
      (fun p : Nat × Nat => if (p.2, p.1) ∈ (fmc n).1.zip (fmc n).2 then (1 : ℚ) else 2) p
        = (fun _ : Nat × Nat => (1 : ℚ)) p := by
    rintro ⟨t, r⟩ hp
    have htr := mem_fmcPairs.1 (show (t, r) ∈ fmcPairs n from hp)
    exact if_pos (show ((r, t) : Nat × Nat) ∈ (fmc n).1.zip (fmc n).2 from
      mem_fmcPairs.2 ⟨htr.2, htr.1⟩)
  rw [List.map_congr_left hone, List.map_const', List.length_zip,
    fmc_fst_length, fmc_snd_length, Nat.min_self]

/-- C6: for the arrays of a half-matrix acquisition `hmc N`, the weight of each
pulse-echo scanline (`tx = rx`) is 1 and the weight of every other scanline is
2 (no reciprocal of a non-pulse-echo pair is present in `hmc N`). -/
theorem weights_hmc_pulse_echo (n : Nat) :
    default_scanline_weights (hmc n).1 (hmc n).2
      = .ok (((hmc n).1.zip (hmc n).2).map
        (fun p => if p.1 = p.2 then (1 : ℚ) else 2)) := by
  rw [dsw_eq (hmc_snd_length n).symm]
  congr 1
  refine List.map_congr_left ?_
  rintro ⟨t, r⟩ hp
  have htr := mem_hmcPairs.1 (show (t, r) ∈ hmcPairs n from hp)
  by_cases heq : t = r
  · subst heq
    rw [if_pos (show ((t, t) : Nat × Nat) ∈ (hmc n).1.zip (hmc n).2 from hp), if_pos rfl]
  · rw [if_neg, if_neg heq]
    intro hmem
    have hrt := mem_hmcPairs.1 (show (r, t) ∈ hmcPairs n from hmem)
    omega

/-- C7: every element of any list returned by `default_scanline_weights` is
exactly 1 or exactly 2. -/
theorem weights_one_or_two (tx rx : List Nat) (w : List ℚ)
    (h : default_scanline_weights tx rx = .ok w) :
    ∀ x ∈ w, x = 1 ∨ x = 2 := by
  by_cases hlen : tx.length = rx.length
  · rw [dsw_eq hlen] at h
    injection h with h'
    intro x hx
    rw [← h', List.mem_map] at hx
    obtain ⟨p, -, rfl⟩ := hx
    by_cases hm : ((p.2, p.1) : Nat × Nat) ∈ tx.zip rx
    · exact Or.inl (if_pos hm)
    · exact Or.inr (if_neg hm)
  · simp only [default_scanline_weights] at h
    rw [if_pos hlen] at h
    exact absurd h (by simp)

/-- Witness for C7 with `tx = [0]`, `rx = [1]`, whose weight list is `[2]`. -/
theorem weights_one_or_two_witness :
    default_scanline_weights [0] [1] = .ok [2] ∧
      ∀ x ∈ ([2] : List ℚ), x = 1 ∨ x = 2 :=
  ⟨rfl, weights_one_or_two [0] [1] [2] rfl⟩

/-- C8: for `N ≥ 1` the scanline count of `hmc N` is exactly `N(N+1)/2` and its
pair set is exactly the canonical half-matrix set
`\x7b(t, r) : 0 ≤ t ≤ r ≤ N-1\x7d`. -/
theorem hmc_canonical (n : Nat) (h : 1 ≤ n) :
    (hmc n).1.length = n * (n + 1) / 2 ∧
    ((hmc n).1.zip (hmc n).2).length = n * (n + 1) / 2 ∧
    ∀ t r : Nat, ((t, r) ∈ (hmc n).1.zip (hmc n).2 ↔ t ≤ r ∧ r ≤ n - 1) := by
  have hlen := hmc_fst_length_twice n
  have hl1 : (hmc n).1.length = n * (n + 1) / 2 := by
    generalize hK : n * (n + 1) = K at hlen ⊢
    omega
  refine ⟨hl1, ?_, ?_⟩
  · rw [List.length_zip, hmc_snd_length, Nat.min_self, hl1]
  · intro t r
    rw [show ((t, r) ∈ (hmc n).1.zip (hmc n).2) = ((t, r) ∈ hmcPairs n) from rfl,
      mem_hmcPairs]
    omega

/-- Witness for C8 at `N = 3`. -/
theorem hmc_canonical_witness :
    (hmc 3).1.length = 3 * (3 + 1) / 2 ∧
    ((hmc 3).1.zip (hmc 3).2).length = 3 * (3 + 1) / 2 ∧
    ∀ t r : Nat, ((t, r) ∈ (hmc 3).1.zip (hmc 3).2 ↔ t ≤ r ∧ r ≤ 3 - 1) :=
  hmc_canonical 3 (by decide)

/-- C9: for nonempty equal-length inputs with
`N = max(max(tx), max(rx)) + 1`, if the scanline count equals neither
`N(N+1)/2` nor `N^2`, or more generally if the observed pair set matches
neither the half-matrix pair set (in either coordinate order) nor the
full-matrix pair set, then `infer_capture_method` returns `"unsupported"`. -/
theorem infer_unsupported_wrong_shape (tx rx : List Nat) (N : Nat)
    (htx : tx ≠ []) (hrx : rx ≠ []) (hlen : tx.length = rx.length)
    (hN : N = max (listMax tx) (listMax rx) + 1)
    (hcase : (tx.length ≠ N * (N + 1) / 2 ∧ tx.length ≠ N * N) ∨
      (setEq (tx.zip rx) ((hmc N).1.zip (hmc N).2) = false ∧
        setEq (tx.zip rx) ((hmc N).2.zip (hmc N).1) = false ∧
        setEq (tx.zip rx) ((fmc N).1.zip (fmc N).2) = false)) :
    infer_capture_method tx rx = .ok "unsupported" := by
  rw [infer_eq_of_ok (npmax_of_ne_nil htx) (npmax_of_ne_nil hrx), if_pos hlen, ← hN]
  rcases hcase with ⟨hh, hf⟩ | ⟨h1, h2, h3⟩
  · refine congrArg Except.ok (classify_unsupported ?_ ?_)
    · rintro ⟨hl, -⟩
      have ht := hmc_fst_length_twice N
      rw [hl] at ht
      generalize hK : N * (N + 1) = K at ht hh
      omega
    · rintro ⟨hl, -⟩
      rw [fmc_fst_length] at hl
      exact hf hl.symm
  · refine congrArg Except.ok (classify_unsupported ?_ ?_)
    · rintro ⟨-, hor⟩
      rcases hor with hs | hs
      · rw [h1] at hs
        exact absurd hs (by decide)
      · rw [h2] at hs
        exact absurd hs (by decide)
    · rintro ⟨-, hs⟩
      rw [h3] at hs
      exact absurd hs (by decide)

/-- Witness for C9 with `tx = [0, 1]`, `rx = [0, 0]` (N = 2, 2 scanlines:
neither 3 nor 4). -/
theorem infer_unsupported_wrong_shape_witness :
    ([0, 1] : List Nat) ≠ [] ∧ ([0, 0] : List Nat) ≠ [] ∧
    ([0, 1] : List Nat).length = ([0, 0] : List Nat).length ∧
    2 = max (listMax [0, 1]) (listMax [0, 0]) + 1 ∧
    infer_capture_method [0, 1] [0, 0] = .ok "unsupported" :=
  ⟨by decide, by decide, rfl, by decide,
    infer_unsupported_wrong_shape [0, 1] [0, 0] 2 (by decide) (by decide) rfl
      (by decide) (Or.inl (by decide))⟩

end Arim
